import Mathlib

set_option maxRecDepth 8000

/-!
Verification of the value concretization engine, class SimValue in
simuvex/s_value.py: witness enumeration (any_n, exactly_n, any), uniqueness
detection (is_unique), binary-search bound finding (min, max) and membership
testing (is_solution), all issued against an incremental push/pop solver.

Shallow-embedding conventions.  Only one expression is in play per SimValue,
so a constraint is modelled semantically as a boolean predicate on the value
of that expression; the external solver collaborator is an assertion stack
(permanent base constraints plus a stack of scoped frames).  Its check is
exact satisfiability over the expression's bit-width domain, and its eval is
instantiated with one conforming deterministic model producer: the least
satisfying value of the domain.  Machine integers are plain Nat bounded by
2 ^ size.  Fallible methods return an Except result paired with the
post-call machine state, so that exceptional exits expose the solver state
they leave behind.
-/

/-- A constraint: a boolean predicate on the value of the wrapped
expression. -/
abbrev Constr := Nat → Bool

/-- The solver collaborator: permanent constraints plus a stack of scoped
frames (innermost first), mutated through push, pop and add. -/
@[ext]
structure Solver where
  base : List Constr
  stack : List (List Constr)

namespace Solver

/-- push: open a fresh scope. -/
def push (s : Solver) : Solver := { s with stack := [] :: s.stack }

/-- pop: discard the innermost scope. -/
def pop (s : Solver) : Solver := { s with stack := s.stack.tail }

/-- add of one constraint: asserted in the innermost scope, or permanently
when no scope is open. -/
def addC (s : Solver) (c : Constr) : Solver :=
  match s.stack with
  | [] => { s with base := s.base ++ [c] }
  | f :: rest => { s with stack := (c :: f) :: rest }

/-- add of several constraints, left to right. -/
def addAll (s : Solver) (cs : List Constr) : Solver :=
  cs.foldl addC s

/-- All currently asserted constraints. -/
def allC (s : Solver) : List Constr := s.base ++ s.stack.flatten

/-- Whether a value satisfies every asserted constraint. -/
def models (s : Solver) (x : Nat) : Bool := s.allC.all fun c => c x

/-- check: exact satisfiability over the size-bit expression domain. -/
def checkB (s : Solver) (size : Nat) : Bool := (List.range (2 ^ size)).any s.models

/-- The satisfying values of the current assertion stack over the size-bit
domain, in increasing order. -/
def solList (s : Solver) (size : Nat) : List Nat :=
  (List.range (2 ^ size)).filter s.models

/-- eval composed with concretize_constant: the model producer, instantiated
as the least satisfying value (one conforming deterministic solver).  Only
called by the code after a sat check. -/
def evalLeast (s : Solver) (size : Nat) : Nat := (s.solList size).headD 0

/-- pop repeated n times (the for-range pop loop closing min and max). -/
def popN : Nat → Solver → Solver
  | 0, s => s
  | n + 1, s => popN n s.pop

end Solver

/-- The typed error taxonomy of the ConcretizingException raise sites:
noSolutions for zero witnesses in exactly_n, insufficientSolutions for a
short witness list in exactly_n, strictModeViolation for concretizing a
symbolic value under CONCRETE_STRICT, unsatisfiable for the precondition
raise opening min and max. -/
inductive SimErr where
  | noSolutions
  | insufficientSolutions (requested found : Nat)
  | strictModeViolation
  | unsatisfiable
deriving DecidableEq

/-- The surroundings of a SimValue: the private or state-shared solver,
whether an owning state exists, and whether CONCRETE_STRICT is among the
owning state's options. -/
@[ext]
structure Machine where
  solver : Solver
  hasState : Bool
  strict : Bool

namespace Machine

/-- The strict-concrete policy test of the source: state is not None and
CONCRETE_STRICT is in state.options. -/
def strictActive (m : Machine) : Bool := m.hasState && m.strict

/-- Modelled from the spec: the Owning State's addPermanentConstraint
operation (state.add_constraints in the source, whose body is outside this
excerpt) permanently adds a constraint to the shared solver, outliving any
single call and bypassing the scoped push/pop protocol. -/
def addPermanent (m : Machine) (c : Constr) : Machine :=
  { m with solver := { m.solver with base := m.solver.base ++ [c] } }

/-- Base extension by a list of permanently learned constraints; the shape
every method leaves the machine in. -/
def extendBase (m : Machine) (cs : List Constr) : Machine :=
  { m with solver := { m.solver with base := m.solver.base ++ cs } }

end Machine

/-- The per-expression data of a SimValue: bit width, symbolic tag, and the
constant value that concretize_constant produces when the expression is not
symbolic. -/
structure SimValue where
  size : Nat
  symbolic : Bool
  constVal : Nat

namespace SimValue

/-- max_for_size: 2 ** size - 1. -/
def max_for_size (v : SimValue) : Nat := 2 ^ v.size - 1

/-- min_for_size: 0. -/
def min_for_size (_ : SimValue) : Nat := 0

/-- is_symbolic, delegated to the expression. -/
def is_symbolic (v : SimValue) : Bool := v.symbolic

/-- satisfiable: solver.check() == sat. -/
def satisfiable (v : SimValue) (m : Machine) : Bool := m.solver.checkB v.size

/-- The enumeration loop of any_n: up to n rounds of check, eval and
blocking-constraint insertion, inside the already-opened scope. -/
def anyLoop (size : Nat) : Nat → Solver → List Nat × Solver
  | 0, s => ([], s)
  | n + 1, s =>
    if s.checkB size then
      let v := s.evalLeast size
      let r := anyLoop size n (s.addC fun x => x != v)
      (v :: r.1, r.2)
    else ([], s)

/-- any_n: the constant for a non-symbolic expression; a strict-mode raise
for a symbolic expression under CONCRETE_STRICT; otherwise push one scope,
assert the extra constraints, enumerate up to n witnesses under blocking
constraints, and pop the scope. -/
def any_n (v : SimValue) (n : Nat) (extra : Option (List Constr)) (m : Machine) :
    Except SimErr (List Nat) × Machine :=
  if v.is_symbolic = false then (.ok [v.constVal], m)
  else if m.strictActive then (.error .strictModeViolation, m)
  else
    let s1 := m.solver.push
    let s2 := match extra with
      | none => s1
      | some cs => s1.addAll cs
    let r := anyLoop v.size n s2
    (.ok r.1, { m with solver := r.2.pop })

/-- is_unique: trivially true for a non-symbolic expression; otherwise an
any_n(2) probe, learning expr == answers[0] permanently when exactly one
answer came back, the owning state exists and no extra constraints were
given. -/
def is_unique (v : SimValue) (extra : Option (List Constr)) (m : Machine) :
    Except SimErr Bool × Machine :=
  if v.is_symbolic = false then (.ok true, m)
  else
    match any_n v 2 extra m with
    | (.error e, m1) => (.error e, m1)
    | (.ok answers, m1) =>
      match answers with
      | [a] =>
        (.ok true,
          if m1.hasState && extra.isNone then m1.addPermanent (fun x => x == a) else m1)
      | _ => (.ok false, m1)

/-- exactly_n: an any_n(n + 1) oversampled probe; raises on zero or fewer
than n witnesses, learns expr == results[0] when n == 1, the expression is
symbolic, exactly one witness came back and the owning state exists (the
source, unlike is_unique, does not test extra_constraints here), and
returns the first n witnesses. -/
def exactly_n (v : SimValue) (n : Nat) (extra : Option (List Constr)) (m : Machine) :
    Except SimErr (List Nat) × Machine :=
  match any_n v (n + 1) extra m with
  | (.error e, m1) => (.error e, m1)
  | (.ok results, m1) =>
    if results.length = 0 then (.error .noSolutions, m1)
    else if (results.take n).length ≠ n then
      (.error (.insufficientSolutions n results.length), m1)
    else
      let m2 :=
        if v.is_symbolic && n == 1 && results.length == 1 && m1.hasState then
          m1.addPermanent (fun x => x == results.headD 0)
        else m1
      (.ok (results.take n), m2)

/-- any: exactly_n(1)[0]. -/
def any (v : SimValue) (extra : Option (List Constr)) (m : Machine) :
    Except SimErr Nat × Machine :=
  match exactly_n v 1 extra m with
  | (.error e, m1) => (.error e, m1)
  | (.ok results, m1) => (.ok (results.headD 0), m1)

/-- is_solution: for a non-symbolic expression, satisfiable and the constant
equals the candidate; for a symbolic one, the strict-mode gate then a scoped
check of expr == candidate. -/
def is_solution (v : SimValue) (sol : Nat) (m : Machine) :
    Except SimErr Bool × Machine :=
  if v.symbolic = false then (.ok (v.satisfiable m && v.constVal == sol), m)
  else if m.strictActive then (.error .strictModeViolation, m)
  else
    let s1 := (m.solver.push).addC fun x => x == sol
    (.ok (s1.checkB v.size), { m with solver := s1.pop })

/-- The binary-search loop of min: with hi - lo > 1 and middle their mean,
push a scope asserting lo <= expr < middle; keep it and lower hi to
middle - 1 when satisfiable, else pop it and raise lo to middle; numpop
counts the retained scopes.  Any fuel at least hi - lo makes this equal to
the source while loop, whose measure hi - lo strictly decreases. -/
def minLoop (size : Nat) : Nat → Nat → Nat → Nat → Solver → Nat × Nat × Nat × Solver
  | 0, lo, hi, numpop, s => (lo, hi, numpop, s)
  | fuel + 1, lo, hi, numpop, s =>
    if hi - lo > 1 then
      let middle := (lo + hi) / 2
      let s1 := (s.push).addAll [fun x => decide (lo ≤ x), fun x => decide (x < middle)]
      if s1.checkB size then
        minLoop size fuel lo (middle - 1) (numpop + 1) s1
      else
        minLoop size fuel middle hi numpop s1.pop
    else (lo, hi, numpop, s)

/-- min: clamp the bounds to the size domain (the source rebinds lo and hi;
here the clamped bounds are written inline), require satisfiability, take
the unique fast path through is_unique and any, else binary-search downward,
pop the retained scopes, and settle the lo versus hi tie by is_solution. -/
def min (v : SimValue) (lo hi : Nat) (m : Machine) : Except SimErr Nat × Machine :=
  if v.satisfiable m = false then (.error .unsatisfiable, m)
  else
    match is_unique v none m with
    | (.error e, m1) => (.error e, m1)
    | (.ok true, m1) => any v none m1
    | (.ok false, m1) =>
      let r := minLoop v.size (Nat.min hi v.max_for_size - Nat.max lo v.min_for_size)
        (Nat.max lo v.min_for_size) (Nat.min hi v.max_for_size) 0 m1.solver
      let m2 := { m1 with solver := Solver.popN r.2.2.1 r.2.2.2 }
      if r.2.1 = r.1 then (.ok r.1, m2)
      else
        match is_solution v r.1 m2 with
        | (.error e, m3) => (.error e, m3)
        | (.ok true, m3) => (.ok r.1, m3)
        | (.ok false, m3) => (.ok r.2.1, m3)

/-- The binary-search loop of max, the mirror image of minLoop: the pushed
scope asserts middle < expr <= hi; keep it and raise lo to middle + 1 when
satisfiable, else pop it and lower hi to middle. -/
def maxLoop (size : Nat) : Nat → Nat → Nat → Nat → Solver → Nat × Nat × Nat × Solver
  | 0, lo, hi, numpop, s => (lo, hi, numpop, s)
  | fuel + 1, lo, hi, numpop, s =>
    if hi - lo > 1 then
      let middle := (lo + hi) / 2
      let s1 := (s.push).addAll [fun x => decide (middle < x), fun x => decide (x ≤ hi)]
      if s1.checkB size then
        maxLoop size fuel (middle + 1) hi (numpop + 1) s1
      else
        maxLoop size fuel lo middle numpop s1.pop
    else (lo, hi, numpop, s)

/-- max: the mirror image of min, settling the tie by is_solution on hi. -/
def max (v : SimValue) (lo hi : Nat) (m : Machine) : Except SimErr Nat × Machine :=
  if v.satisfiable m = false then (.error .unsatisfiable, m)
  else
    match is_unique v none m with
    | (.error e, m1) => (.error e, m1)
    | (.ok true, m1) => any v none m1
    | (.ok false, m1) =>
      let r := maxLoop v.size (Nat.min hi v.max_for_size - Nat.max lo v.min_for_size)
        (Nat.max lo v.min_for_size) (Nat.min hi v.max_for_size) 0 m1.solver
      let m2 := { m1 with solver := Solver.popN r.2.2.1 r.2.2.2 }
      if r.1 = r.2.1 then (.ok r.2.1, m2)
      else
        match is_solution v r.2.1 m2 with
        | (.error e, m3) => (.error e, m3)
        | (.ok true, m3) => (.ok r.2.1, m3)
        | (.ok false, m3) => (.ok r.1, m3)

end SimValue

/-- The constraint list carried by an extra_constraints argument (None adds
nothing). -/
def extraL (extra : Option (List Constr)) : List Constr := extra.getD []

/-- Satisfaction of the current constraint set together with the extra
constraints. -/
def eSat (m : Machine) (extra : Option (List Constr)) (x : Nat) : Bool :=
  m.solver.models x && (extraL extra).all fun c => c x

/-- The solutions of the current constraints plus the extra constraints over
the size-bit domain, in increasing order. -/
def solListE (v : SimValue) (extra : Option (List Constr)) (m : Machine) : List Nat :=
  (List.range (2 ^ v.size)).filter (eSat m extra)

/-- The number of such solutions. -/
def solCountE (v : SimValue) (extra : Option (List Constr)) (m : Machine) : Nat :=
  (solListE v extra m).length

/-- x is the least value satisfying the current constraints within the
clamped range. -/
def isLeastSol (s : Solver) (size lo0 hi0 x : Nat) : Prop :=
  s.models x = true ∧ lo0 ≤ x ∧ x ≤ hi0 ∧
    ∀ y, y < 2 ^ size → s.models y = true → lo0 ≤ y → y ≤ hi0 → x ≤ y

/-- x is the greatest value satisfying the current constraints within the
clamped range. -/
def isGreatestSol (s : Solver) (size lo0 hi0 x : Nat) : Prop :=
  s.models x = true ∧ lo0 ≤ x ∧ x ≤ hi0 ∧
    ∀ y, y < 2 ^ size → s.models y = true → lo0 ≤ y → y ≤ hi0 → y ≤ x

instance (s : Solver) (size lo0 hi0 x : Nat) : Decidable (isLeastSol s size lo0 hi0 x) := by
  unfold isLeastSol; infer_instance

instance (s : Solver) (size lo0 hi0 x : Nat) : Decidable (isGreatestSol s size lo0 hi0 x) := by
  unfold isGreatestSol; infer_instance

/-- One public operation call on a SimValue, to state properties uniform in
the operation. -/
inductive OpCall where
  | callAnyN (n : Nat) (extra : Option (List Constr))
  | callIsUnique (extra : Option (List Constr))
  | callMin (lo hi : Nat)
  | callMax (lo hi : Nat)
  | callExactlyN (n : Nat) (extra : Option (List Constr))
  | callAny (extra : Option (List Constr))
  | callIsSolution (sol : Nat)

/-- The machine state an operation call leaves behind, on every exit path:
normal return, early loop exit, or raised typed error. -/
def runOp (v : SimValue) (op : OpCall) (m : Machine) : Machine :=
  match op with
  | .callAnyN n extra => (v.any_n n extra m).2
  | .callIsUnique extra => (v.is_unique extra m).2
  | .callMin lo hi => (v.min lo hi m).2
  | .callMax lo hi => (v.max lo hi m).2
  | .callExactlyN n extra => (v.exactly_n n extra m).2
  | .callAny extra => (v.any extra m).2
  | .callIsSolution sol => (v.is_solution sol m).2

/-- The 8-bit symbolic probe expression of the spec scenarios. -/
def sv8w : SimValue := { size := 8, symbolic := true, constVal := 0 }

/-- An 8-bit constraint set 5 <= x <= 9 (spec scenario 3), no owning state. -/
def mach59 : Machine :=
  { solver := { base := [fun x => decide (5 ≤ x), fun x => decide (x ≤ 9)], stack := [] },
    hasState := false, strict := false }

/-- A non-symbolic 8-bit expression with constant 0x41. -/
def svConst : SimValue := { size := 8, symbolic := false, constVal := 65 }

/-- An empty, hence satisfiable, private constraint set. -/
def machFree : Machine :=
  { solver := { base := [], stack := [] }, hasState := false, strict := false }

/-- An unsatisfiable constraint set. -/
def machNever : Machine :=
  { solver := { base := [fun _ => false], stack := [] }, hasState := false, strict := false }

/-- An owning state whose constraints admit exactly the values 3 and 5. -/
def mach35 : Machine :=
  { solver := { base := [fun x => x == 3 || x == 5], stack := [] },
    hasState := true, strict := false }

/-- The extra-constraint argument asserting expr == 5. -/
def extra5 : Option (List Constr) := some [fun x => x == 5]

/-- An owning state whose constraints pin the expression to 7. -/
def mach7 : Machine :=
  { solver := { base := [fun x => x == 7], stack := [] }, hasState := true, strict := false }

/-- An owning state with the CONCRETE_STRICT option active. -/
def machStrict : Machine :=
  { solver := { base := [], stack := [] }, hasState := true, strict := true }

/-! ### Solver lemmas -/

namespace Solver

theorem models_push (s : Solver) (x : Nat) : s.push.models x = s.models x := by
  simp [models, allC, push]

theorem mem_allC_addC (s : Solver) (c d : Constr) :
    d ∈ (s.addC c).allC ↔ d = c ∨ d ∈ s.allC := by
  obtain ⟨b, st⟩ := s
  cases st with
  | nil => simp [addC, allC]; tauto
  | cons f rest => simp [addC, allC]; tauto

theorem models_addC (s : Solver) (c : Constr) (x : Nat) :
    (s.addC c).models x = (s.models x && c x) := by
  rw [Bool.eq_iff_iff]
  simp only [models, List.all_eq_true, Bool.and_eq_true]
  constructor
  · intro h
    exact ⟨fun d hd => h d ((mem_allC_addC s c d).mpr (Or.inr hd)),
      h c ((mem_allC_addC s c c).mpr (Or.inl rfl))⟩
  · rintro ⟨h1, h2⟩ d hd
    rcases (mem_allC_addC s c d).mp hd with rfl | hd
    · exact h2
    · exact h1 d hd

theorem models_addAll (cs : List Constr) :
    ∀ (s : Solver) (x : Nat), (s.addAll cs).models x = (s.models x && cs.all fun c => c x) := by
  induction cs with
  | nil => intro s x; simp [addAll]
  | cons c cs ih =>
    intro s x
    have h1 : s.addAll (c :: cs) = (s.addC c).addAll cs := rfl
    rw [h1, ih, models_addC]
    simp [Bool.and_assoc]

theorem checkB_iff (s : Solver) (size : Nat) :
    s.checkB size = true ↔ ∃ x, x < 2 ^ size ∧ s.models x = true := by
  simp [checkB, List.any_eq_true, List.mem_range]

theorem mem_solList (s : Solver) (size x : Nat) :
    x ∈ s.solList size ↔ x < 2 ^ size ∧ s.models x = true := by
  simp [solList, List.mem_filter, List.mem_range]

theorem solList_pairwise (s : Solver) (size : Nat) :
    (s.solList size).Pairwise (· < ·) :=
  List.Pairwise.filter _ (List.pairwise_lt_range _)

theorem solList_nodup (s : Solver) (size : Nat) : (s.solList size).Nodup :=
  (List.nodup_range _).filter _

theorem checkB_iff_solList (s : Solver) (size : Nat) :
    s.checkB size = true ↔ s.solList size ≠ [] := by
  rw [checkB_iff]
  constructor
  · rintro ⟨x, hx, hm⟩ hnil
    have hmem := (mem_solList s size x).mpr ⟨hx, hm⟩
    rw [hnil] at hmem
    simp at hmem
  · intro h
    obtain ⟨x, hx⟩ := List.exists_mem_of_ne_nil _ h
    obtain ⟨h1, h2⟩ := (mem_solList s size x).mp hx
    exact ⟨x, h1, h2⟩

theorem solList_addC (s : Solver) (c : Constr) (size : Nat) :
    (s.addC c).solList size = (s.solList size).filter c := by
  rw [solList, solList, List.filter_filter]
  apply List.filter_congr
  intro x _
  rw [models_addC, Bool.and_comm]

theorem solList_addC_bne (s : Solver) (size h0 : Nat) (t : List Nat)
    (hsl : s.solList size = h0 :: t) :
    (s.addC fun x => x != h0).solList size = t := by
  rw [solList_addC, hsl]
  have hlt : ∀ y ∈ t, h0 < y := by
    have hp := solList_pairwise s size
    rw [hsl] at hp
    exact (List.pairwise_cons.mp hp).1
  rw [List.filter_cons]
  simp only [bne_self_eq_false, Bool.false_eq_true, if_false]
  apply List.filter_eq_self.mpr
  intro y hy
  simpa using Nat.ne_of_gt (hlt y hy)

theorem evalLeast_eq (s : Solver) (size h0 : Nat) (t : List Nat)
    (hsl : s.solList size = h0 :: t) : s.evalLeast size = h0 := by
  rw [evalLeast, hsl]
  rfl

theorem addC_frames (s : Solver) (c : Constr) (f : List Constr) (t : List (List Constr))
    (h : s.stack = f :: t) :
    (s.addC c).stack = (c :: f) :: t ∧ (s.addC c).base = s.base := by
  obtain ⟨b, st⟩ := s
  simp only at h
  subst h
  exact ⟨rfl, rfl⟩

theorem addAll_frames (cs : List Constr) :
    ∀ (s : Solver) (f : List Constr) (t : List (List Constr)), s.stack = f :: t →
      ∃ f2, (s.addAll cs).stack = f2 :: t ∧ (s.addAll cs).base = s.base := by
  induction cs with
  | nil => intro s f t h; exact ⟨f, h, rfl⟩
  | cons c cs ih =>
    intro s f t h
    obtain ⟨hst, hb⟩ := addC_frames s c f t h
    obtain ⟨f2, h2, hb2⟩ := ih (s.addC c) (c :: f) t hst
    have h1 : s.addAll (c :: cs) = (s.addC c).addAll cs := rfl
    exact ⟨f2, by rw [h1]; exact h2, by rw [h1, hb2, hb]⟩

theorem pop_pushAddAll (s : Solver) (cs : List Constr) : ((s.push).addAll cs).pop = s := by
  obtain ⟨f2, hst, hb⟩ := addAll_frames cs s.push [] s.stack rfl
  ext1
  · rw [pop, hb]; rfl
  · rw [pop, hst]; rfl

theorem popN_frames (fs : List (List Constr)) :
    ∀ (b : List Constr) (st : List (List Constr)) (s : Solver),
      s.base = b → s.stack = fs ++ st → Solver.popN fs.length s = { base := b, stack := st } := by
  induction fs with
  | nil =>
    intro b st s hb hst
    show s = _
    ext1
    · exact hb
    · exact hst
  | cons f fs ih =>
    intro b st s hb hst
    show popN fs.length s.pop = _
    apply ih
    · rw [pop, hb]
    · rw [pop, hst]; rfl

end Solver

/-! ### Machine lemmas -/

namespace Machine

theorem addPermanent_eq_extendBase (m : Machine) (c : Constr) :
    m.addPermanent c = m.extendBase [c] := rfl

theorem extendBase_nil (m : Machine) : m.extendBase [] = m := by
  obtain ⟨⟨b, st⟩, h, c⟩ := m
  simp [extendBase]

theorem extendBase_extendBase (m : Machine) (cs ds : List Constr) :
    (m.extendBase cs).extendBase ds = m.extendBase (cs ++ ds) := by
  obtain ⟨⟨b, st⟩, h, c⟩ := m
  simp [extendBase]

theorem strictActive_extendBase (m : Machine) (cs : List Constr) :
    (m.extendBase cs).strictActive = m.strictActive := rfl

theorem hasState_extendBase (m : Machine) (cs : List Constr) :
    (m.extendBase cs).hasState = m.hasState := rfl

theorem solver_extendBase (m : Machine) (cs : List Constr) :
    (m.extendBase cs).solver = { m.solver with base := m.solver.base ++ cs } := rfl

theorem models_extendBase (m : Machine) (cs : List Constr) (x : Nat) :
    (m.extendBase cs).solver.models x = (m.solver.models x && cs.all fun c => c x) := by
  induction cs generalizing m with
  | nil => rw [extendBase_nil]; simp
  | cons c cs ih =>
    have h1 : m.extendBase (c :: cs) = (m.addPermanent c).extendBase cs := by
      rw [addPermanent_eq_extendBase, extendBase_extendBase]; rfl
    rw [h1, ih]
    have h2 : (m.addPermanent c).solver.models x = (m.solver.models x && c x) := by
      have h3 : (m.addPermanent c).solver = m.solver.addC c ∨
          (m.addPermanent c).solver.models x = (m.solver.models x && c x) := by
        obtain ⟨⟨b, st⟩, hs, hc⟩ := m
        cases st with
        | nil => left; rfl
        | cons f rest =>
          right
          rw [Bool.eq_iff_iff]
          simp [addPermanent, Solver.models, Solver.allC, List.all_append, Bool.and_eq_true,
            List.all_eq_true]
          tauto
      rcases h3 with h3 | h3
      · rw [h3, Solver.models_addC]
      · exact h3
    rw [h2, Bool.and_assoc]
    simp [List.all_cons]

end Machine

/-! ### Enumeration lemmas -/

namespace SimValue

theorem anyLoop_fst (size : Nat) :
    ∀ (n : Nat) (s : Solver), (anyLoop size n s).1 = (s.solList size).take n := by
  intro n
  induction n with
  | zero => intro s; simp [anyLoop]
  | succ k ih =>
    intro s
    rw [anyLoop]
    by_cases hc : s.checkB size = true
    · rw [if_pos hc]
      have hne := (Solver.checkB_iff_solList s size).mp hc
      obtain ⟨h0, t, hsl⟩ : ∃ h0 t, s.solList size = h0 :: t := by
        cases hl : s.solList size with
        | nil => exact absurd hl hne
        | cons a b => exact ⟨a, b, rfl⟩
      have hev : s.evalLeast size = h0 := Solver.evalLeast_eq s size h0 t hsl
      show s.evalLeast size :: (anyLoop size k (s.addC fun x => x != s.evalLeast size)).1
          = (s.solList size).take (k + 1)
      simp only [hev]
      rw [ih, Solver.solList_addC_bne s size h0 t hsl, hsl]
      rfl
    · rw [if_neg hc]
      have hnil : s.solList size = [] := by
        by_contra hne
        exact hc ((Solver.checkB_iff_solList s size).mpr hne)
      rw [hnil]
      rfl

theorem anyLoop_frames (size : Nat) :
    ∀ (n : Nat) (s : Solver) (f : List Constr) (t : List (List Constr)), s.stack = f :: t →
      ∃ f2, (anyLoop size n s).2.stack = f2 :: t ∧ (anyLoop size n s).2.base = s.base := by
  intro n
  induction n with
  | zero => intro s f t h; exact ⟨f, h, rfl⟩
  | succ k ih =>
    intro s f t h
    rw [anyLoop]
    by_cases hc : s.checkB size = true
    · rw [if_pos hc]
      obtain ⟨hst, hb⟩ := Solver.addC_frames s (fun x => x != s.evalLeast size) f t h
      obtain ⟨f2, h2, hb2⟩ := ih (s.addC fun x => x != s.evalLeast size) _ t hst
      exact ⟨f2, h2, by rw [hb2, hb]⟩
    · rw [if_neg hc]
      exact ⟨f, h, rfl⟩

theorem anyLoop_popRestores (size n : Nat) (s : Solver) (cs : List Constr) :
    (anyLoop size n ((s.push).addAll cs)).2.pop = s := by
  obtain ⟨f2, hst, hb⟩ := Solver.addAll_frames cs s.push [] s.stack rfl
  obtain ⟨f3, hst3, hb3⟩ := anyLoop_frames size n ((s.push).addAll cs) f2 s.stack hst
  ext1
  · show (anyLoop size n ((s.push).addAll cs)).2.base = s.base
    rw [hb3, hb]
    rfl
  · show (anyLoop size n ((s.push).addAll cs)).2.stack.tail = s.stack
    rw [hst3]
    rfl

theorem solListE_eq (v : SimValue) (extra : Option (List Constr)) (m : Machine) :
    ((m.solver.push).addAll (extraL extra)).solList v.size = solListE v extra m := by
  apply List.filter_congr
  intro x _
  rw [Solver.models_addAll, Solver.models_push]
  rfl

theorem any_n_run (v : SimValue) (n : Nat) (extra : Option (List Constr)) (m : Machine)
    (hsym : v.symbolic = true) (hstrict : m.strictActive = false) :
    any_n v n extra m = (.ok ((solListE v extra m).take n), m) := by
  rw [any_n, if_neg (by simp [is_symbolic, hsym]), if_neg (by simp [hstrict])]
  cases extra with
  | none =>
    show (Except.ok (anyLoop v.size n m.solver.push).1,
        { m with solver := (anyLoop v.size n m.solver.push).2.pop }) = _
    have h1 : (anyLoop v.size n m.solver.push).1 = (solListE v none m).take n := by
      rw [anyLoop_fst]
      exact congrArg (List.take n) (solListE_eq v none m)
    have h2 : (anyLoop v.size n m.solver.push).2.pop = m.solver :=
      anyLoop_popRestores v.size n m.solver []
    rw [h1, h2]
  | some cs =>
    show (Except.ok (anyLoop v.size n ((m.solver.push).addAll cs)).1,
        { m with solver := (anyLoop v.size n ((m.solver.push).addAll cs)).2.pop }) = _
    have h1 : (anyLoop v.size n ((m.solver.push).addAll cs)).1
        = (solListE v (some cs) m).take n := by
      rw [anyLoop_fst]
      exact congrArg (List.take n) (solListE_eq v (some cs) m)
    have h2 : (anyLoop v.size n ((m.solver.push).addAll cs)).2.pop = m.solver :=
      anyLoop_popRestores v.size n m.solver cs
    rw [h1, h2]

theorem any_n_snd (v : SimValue) (n : Nat) (extra : Option (List Constr)) (m : Machine) :
    (any_n v n extra m).2 = m := by
  rw [any_n]
  by_cases h1 : v.is_symbolic = false
  · rw [if_pos h1]
  · rw [if_neg h1]
    by_cases h2 : m.strictActive = true
    · rw [if_pos h2]
    · rw [if_neg h2]
      cases extra with
      | none =>
        show { m with solver := (anyLoop v.size n m.solver.push).2.pop } = m
        ext1
        · exact anyLoop_popRestores v.size n m.solver []
        · rfl
        · rfl
      | some cs =>
        show { m with solver := (anyLoop v.size n ((m.solver.push).addAll cs)).2.pop } = m
        ext1
        · exact anyLoop_popRestores v.size n m.solver cs
        · rfl
        · rfl

theorem any_n_const (v : SimValue) (n : Nat) (extra : Option (List Constr)) (m : Machine)
    (h : v.symbolic = false) : any_n v n extra m = (.ok [v.constVal], m) := by
  rw [any_n, if_pos (by simp [is_symbolic, h])]

end SimValue

/-! ### Derived-method lemmas -/

namespace SimValue

theorem is_unique_run (v : SimValue) (extra : Option (List Constr)) (m : Machine)
    (hsym : v.symbolic = true) (hstrict : m.strictActive = false) :
    is_unique v extra m =
      (.ok (solCountE v extra m == 1),
        if (solCountE v extra m == 1) && m.hasState && extra.isNone then
          m.addPermanent (fun x => x == (solListE v extra m).headD 0)
        else m) := by
  cases hL : solListE v extra m with
  | nil =>
    have hok : any_n v 2 extra m = (.ok [], m) := by
      rw [any_n_run v 2 extra m hsym hstrict, hL]
      rfl
    have hc : solCountE v extra m = 0 := by
      unfold solCountE
      rw [hL]
      rfl
    rw [is_unique, if_neg (by simp [is_symbolic, hsym]), hok, hc]
    simp
  | cons a t =>
    cases t with
    | nil =>
      have hok : any_n v 2 extra m = (.ok [a], m) := by
        rw [any_n_run v 2 extra m hsym hstrict, hL]
        rfl
      have hc : solCountE v extra m = 1 := by
        unfold solCountE
        rw [hL]
        rfl
      rw [is_unique, if_neg (by simp [is_symbolic, hsym]), hok, hc]
      simp only [Bool.true_and]
      rfl
    | cons b t2 =>
      have hok : any_n v 2 extra m = (.ok [a, b], m) := by
        rw [any_n_run v 2 extra m hsym hstrict, hL]
        rfl
      have hc : solCountE v extra m = t2.length + 2 := by
        unfold solCountE
        rw [hL]
        rfl
      rw [is_unique, if_neg (by simp [is_symbolic, hsym]), hok, hc]
      have hb : (t2.length + 2 == 1) = false := beq_eq_false_iff_ne.mpr (by omega)
      rw [hb]
      simp

theorem exactly_n_ok_reduce (v : SimValue) (n : Nat) (extra : Option (List Constr))
    (m m1 : Machine) (results : List Nat)
    (h : any_n v (n + 1) extra m = (.ok results, m1)) :
    exactly_n v n extra m =
      (if results.length = 0 then (.error .noSolutions, m1)
       else if (results.take n).length ≠ n then
         (.error (.insufficientSolutions n results.length), m1)
       else
         (.ok (results.take n),
           if v.is_symbolic && n == 1 && results.length == 1 && m1.hasState then
             m1.addPermanent (fun x => x == results.headD 0)
           else m1)) := by
  rw [exactly_n, h]

theorem exactly_n_zero (v : SimValue) (n : Nat) (extra : Option (List Constr)) (m : Machine)
    (hsym : v.symbolic = true) (hstrict : m.strictActive = false)
    (h0 : solCountE v extra m = 0) :
    exactly_n v n extra m = (.error .noSolutions, m) := by
  have hnil : solListE v extra m = [] := List.length_eq_zero.mp h0
  have hok : any_n v (n + 1) extra m = (.ok [], m) := by
    rw [any_n_run v (n + 1) extra m hsym hstrict, hnil]
    rfl
  rw [exactly_n_ok_reduce v n extra m m [] hok]
  rfl

theorem exactly_n_insufficient (v : SimValue) (n : Nat) (extra : Option (List Constr))
    (m : Machine) (hsym : v.symbolic = true) (hstrict : m.strictActive = false)
    (hpos : 0 < solCountE v extra m) (hlt : solCountE v extra m < n) :
    exactly_n v n extra m = (.error (.insufficientSolutions n (solCountE v extra m)), m) := by
  have hok : any_n v (n + 1) extra m = (.ok ((solListE v extra m).take (n + 1)), m) :=
    any_n_run v (n + 1) extra m hsym hstrict
  rw [exactly_n_ok_reduce v n extra m m _ hok]
  have hlen : ((solListE v extra m).take (n + 1)).length = solCountE v extra m := by
    rw [List.length_take]
    exact min_eq_right (by have hc := hlt; unfold solCountE at hc; omega)
  have h1 : ¬ (((solListE v extra m).take (n + 1)).length = 0) := by
    rw [hlen]; omega
  have h2 : ((((solListE v extra m).take (n + 1)).take n).length ≠ n) := by
    rw [List.length_take, hlen]
    have : Min.min n (solCountE v extra m) = solCountE v extra m :=
      min_eq_right (by omega)
    rw [this]
    omega
  rw [if_neg h1, if_pos h2, hlen]

theorem exactly_n_enough (v : SimValue) (n : Nat) (extra : Option (List Constr))
    (m : Machine) (hsym : v.symbolic = true) (hstrict : m.strictActive = false)
    (hpos : 0 < solCountE v extra m) (hge : n ≤ solCountE v extra m) :
    (exactly_n v n extra m).1 = .ok ((solListE v extra m).take n) := by
  have hok : any_n v (n + 1) extra m = (.ok ((solListE v extra m).take (n + 1)), m) :=
    any_n_run v (n + 1) extra m hsym hstrict
  rw [exactly_n_ok_reduce v n extra m m _ hok]
  have hpos1 : 1 ≤ ((solListE v extra m).take (n + 1)).length := by
    rw [List.length_take]
    exact le_min (by omega) (by unfold solCountE at hpos; omega)
  have h1 : ¬ (((solListE v extra m).take (n + 1)).length = 0) := by omega
  have hlen2 : ((((solListE v extra m).take (n + 1)).take n).length = n) := by
    rw [List.take_take]
    have hmin : Min.min n (n + 1) = n := min_eq_left (by omega)
    rw [hmin, List.length_take]
    exact min_eq_left (by unfold solCountE at hge; omega)
  have h2 : ¬ ((((solListE v extra m).take (n + 1)).take n).length ≠ n) := by omega
  rw [if_neg h1, if_neg h2]
  show Except.ok (((solListE v extra m).take (n + 1)).take n) = _
  rw [List.take_take]
  have hmin : Min.min n (n + 1) = n := min_eq_left (by omega)
  rw [hmin]

theorem exactly_n_one_unique (v : SimValue) (extra : Option (List Constr)) (m : Machine)
    (w : Nat) (hsym : v.symbolic = true) (hstrict : m.strictActive = false)
    (hL : solListE v extra m = [w]) :
    exactly_n v 1 extra m =
      (.ok [w], if m.hasState then m.addPermanent (fun x => x == w) else m) := by
  have hok : any_n v 2 extra m = (.ok [w], m) := by
    rw [any_n_run v 2 extra m hsym hstrict, hL]
    rfl
  rw [exactly_n_ok_reduce v 1 extra m m [w] hok]
  simp [is_symbolic, hsym]

theorem any_run_unique (v : SimValue) (extra : Option (List Constr)) (m : Machine)
    (w : Nat) (hsym : v.symbolic = true) (hstrict : m.strictActive = false)
    (hL : solListE v extra m = [w]) :
    any v extra m = (.ok w, if m.hasState then m.addPermanent (fun x => x == w) else m) := by
  rw [any, exactly_n_one_unique v extra m w hsym hstrict hL]
  rfl

theorem is_solution_run (v : SimValue) (sol : Nat) (m : Machine)
    (hsym : v.symbolic = true) (hstrict : m.strictActive = false) :
    is_solution v sol m = (.ok (decide (sol < 2 ^ v.size) && m.solver.models sol), m) := by
  rw [is_solution, if_neg (by simp [hsym]), if_neg (by simp [hstrict])]
  show (Except.ok (((m.solver.push).addC fun x => x == sol).checkB v.size),
      { m with solver := ((m.solver.push).addC fun x => x == sol).pop }) = _
  have h1 : ((m.solver.push).addC fun x => x == sol).checkB v.size
      = (decide (sol < 2 ^ v.size) && m.solver.models sol) := by
    rw [Bool.eq_iff_iff, Solver.checkB_iff]
    constructor
    · rintro ⟨x, hx, hm⟩
      rw [Solver.models_addC] at hm
      rcases Bool.and_eq_true _ _ |>.mp hm with ⟨hm1, he⟩
      rw [Solver.models_push] at hm1
      have hxs : x = sol := by simpa using he
      subst hxs
      simp [hx, hm1]
    · intro h
      rcases Bool.and_eq_true _ _ |>.mp h with ⟨h1, h2⟩
      refine ⟨sol, by simpa using h1, ?_⟩
      rw [Solver.models_addC, Solver.models_push]
      simp [h2]
  have h2 : ((m.solver.push).addC fun x => x == sol).pop = m.solver :=
    Solver.pop_pushAddAll m.solver [fun x => x == sol]
  rw [h1, h2]

theorem is_solution_snd (v : SimValue) (sol : Nat) (m : Machine) :
    (is_solution v sol m).2 = m := by
  rw [is_solution]
  by_cases h1 : v.symbolic = false
  · rw [if_pos h1]
  · rw [if_neg h1]
    by_cases h2 : m.strictActive = true
    · rw [if_pos h2]
    · rw [if_neg h2]
      show { m with solver := ((m.solver.push).addC fun x => x == sol).pop } = m
      ext1
      · exact Solver.pop_pushAddAll m.solver [fun x => x == sol]
      · rfl
      · rfl

theorem is_unique_snd (v : SimValue) (extra : Option (List Constr)) (m : Machine) :
    ∃ cs, (is_unique v extra m).2 = m.extendBase cs := by
  rw [is_unique]
  by_cases h1 : v.is_symbolic = false
  · rw [if_pos h1]
    exact ⟨[], (Machine.extendBase_nil m).symm⟩
  · rw [if_neg h1]
    have hm := any_n_snd v 2 extra m
    rcases hr : any_n v 2 extra m with ⟨res, m1⟩
    rw [hr] at hm
    have hm2 : m1 = m := hm
    cases res with
    | error e => exact ⟨[], by rw [Machine.extendBase_nil]; exact hm2⟩
    | ok answers =>
      cases answers with
      | nil => exact ⟨[], by rw [Machine.extendBase_nil]; exact hm2⟩
      | cons a t =>
        cases t with
        | nil =>
          by_cases hc : (m1.hasState && extra.isNone) = true
          · refine ⟨[fun x => x == a], ?_⟩
            show (if m1.hasState && extra.isNone then
                m1.addPermanent fun x => x == a else m1) = _
            rw [if_pos hc, hm2, Machine.addPermanent_eq_extendBase]
          · refine ⟨[], ?_⟩
            show (if m1.hasState && extra.isNone then
                m1.addPermanent fun x => x == a else m1) = _
            rw [if_neg hc, hm2, Machine.extendBase_nil]
        | cons b t2 => exact ⟨[], by rw [Machine.extendBase_nil]; exact hm2⟩

theorem exactly_n_snd (v : SimValue) (n : Nat) (extra : Option (List Constr)) (m : Machine) :
    ∃ cs, (exactly_n v n extra m).2 = m.extendBase cs := by
  have hm := any_n_snd v (n + 1) extra m
  rcases hr : any_n v (n + 1) extra m with ⟨res, m1⟩
  rw [hr] at hm
  have hm2 : m1 = m := hm
  rw [hm2] at hr
  cases res with
  | error e =>
    have hred : exactly_n v n extra m = (.error e, m) := by
      rw [exactly_n, hr]
    exact ⟨[], by rw [hred, Machine.extendBase_nil]⟩
  | ok results =>
    rw [exactly_n_ok_reduce v n extra m m results hr]
    by_cases h1 : results.length = 0
    · rw [if_pos h1]
      exact ⟨[], by rw [Machine.extendBase_nil]⟩
    · rw [if_neg h1]
      by_cases h2 : (results.take n).length ≠ n
      · rw [if_pos h2]
        exact ⟨[], by rw [Machine.extendBase_nil]⟩
      · rw [if_neg h2]
        by_cases h3 : (v.is_symbolic && n == 1 && results.length == 1 && m.hasState) = true
        · refine ⟨[fun x => x == results.headD 0], ?_⟩
          show (if v.is_symbolic && n == 1 && results.length == 1 && m.hasState then
              m.addPermanent fun x => x == results.headD 0 else m) = _
          rw [if_pos h3, Machine.addPermanent_eq_extendBase]
        · refine ⟨[], ?_⟩
          show (if v.is_symbolic && n == 1 && results.length == 1 && m.hasState then
              m.addPermanent fun x => x == results.headD 0 else m) = _
          rw [if_neg h3, Machine.extendBase_nil]

theorem any_snd (v : SimValue) (extra : Option (List Constr)) (m : Machine) :
    ∃ cs, (any v extra m).2 = m.extendBase cs := by
  rw [any]
  obtain ⟨cs, hcs⟩ := exactly_n_snd v 1 extra m
  rcases hr : exactly_n v 1 extra m with ⟨res, m1⟩
  rw [hr] at hcs
  cases res with
  | error e => exact ⟨cs, hcs⟩
  | ok results => exact ⟨cs, hcs⟩

end SimValue

/-! ### Binary-search loop lemmas -/

namespace SimValue

theorem solListE_none (v : SimValue) (m : Machine) :
    solListE v none m = m.solver.solList v.size := by
  apply List.filter_congr
  intro x _
  simp [eSat, extraL]

theorem strictActive_addPermanent (m : Machine) (c : Constr) :
    (m.addPermanent c).strictActive = m.strictActive := rfl

theorem hasState_addPermanent (m : Machine) (c : Constr) :
    (m.addPermanent c).hasState = m.hasState := rfl

theorem solList_addPermanent (m : Machine) (c : Constr) (size : Nat) :
    (m.addPermanent c).solver.solList size = (m.solver.solList size).filter c := by
  rw [Solver.solList, Solver.solList, List.filter_filter]
  apply List.filter_congr
  intro x _
  rw [Machine.addPermanent_eq_extendBase, Machine.models_extendBase]
  simp [Bool.and_comm]

theorem minLoop_frames (size : Nat) :
    ∀ (fuel lo hi numpop : Nat) (s : Solver) (b0 : List Constr) (st0 : List (List Constr)),
      s.base = b0 → (∃ fs, s.stack = fs ++ st0 ∧ fs.length = numpop) →
      (minLoop size fuel lo hi numpop s).2.2.2.base = b0 ∧
        ∃ fs2, (minLoop size fuel lo hi numpop s).2.2.2.stack = fs2 ++ st0 ∧
          fs2.length = (minLoop size fuel lo hi numpop s).2.2.1 := by
  intro fuel
  induction fuel with
  | zero =>
    intro lo hi numpop s b0 st0 hb hfs
    obtain ⟨fs, hst, hlen⟩ := hfs
    exact ⟨hb, fs, hst, hlen⟩
  | succ k ih =>
    intro lo hi numpop s b0 st0 hb hfs
    obtain ⟨fs, hst, hlen⟩ := hfs
    rw [minLoop]
    by_cases hgt : hi - lo > 1
    · rw [if_pos hgt]
      obtain ⟨f2, hst2, hb2⟩ := Solver.addAll_frames
        [fun x => decide (lo ≤ x), fun x => decide (x < (lo + hi) / 2)] s.push [] s.stack rfl
      by_cases hc : ((s.push).addAll
          [fun x => decide (lo ≤ x), fun x => decide (x < (lo + hi) / 2)]).checkB size = true
      · rw [if_pos hc]
        apply ih
        · rw [hb2]; exact hb
        · exact ⟨f2 :: fs, by rw [hst2, hst]; rfl, by simp [hlen]⟩
      · rw [if_neg hc]
        rw [Solver.pop_pushAddAll]
        exact ih ((lo + hi) / 2) hi numpop s b0 st0 hb ⟨fs, hst, hlen⟩
    · rw [if_neg hgt]
      exact ⟨hb, fs, hst, hlen⟩

theorem maxLoop_frames (size : Nat) :
    ∀ (fuel lo hi numpop : Nat) (s : Solver) (b0 : List Constr) (st0 : List (List Constr)),
      s.base = b0 → (∃ fs, s.stack = fs ++ st0 ∧ fs.length = numpop) →
      (maxLoop size fuel lo hi numpop s).2.2.2.base = b0 ∧
        ∃ fs2, (maxLoop size fuel lo hi numpop s).2.2.2.stack = fs2 ++ st0 ∧
          fs2.length = (maxLoop size fuel lo hi numpop s).2.2.1 := by
  intro fuel
  induction fuel with
  | zero =>
    intro lo hi numpop s b0 st0 hb hfs
    obtain ⟨fs, hst, hlen⟩ := hfs
    exact ⟨hb, fs, hst, hlen⟩
  | succ k ih =>
    intro lo hi numpop s b0 st0 hb hfs
    obtain ⟨fs, hst, hlen⟩ := hfs
    rw [maxLoop]
    by_cases hgt : hi - lo > 1
    · rw [if_pos hgt]
      obtain ⟨f2, hst2, hb2⟩ := Solver.addAll_frames
        [fun x => decide ((lo + hi) / 2 < x), fun x => decide (x ≤ hi)] s.push [] s.stack rfl
      by_cases hc : ((s.push).addAll
          [fun x => decide ((lo + hi) / 2 < x), fun x => decide (x ≤ hi)]).checkB size = true
      · rw [if_pos hc]
        apply ih
        · rw [hb2]; exact hb
        · exact ⟨f2 :: fs, by rw [hst2, hst]; rfl, by simp [hlen]⟩
      · rw [if_neg hc]
        rw [Solver.pop_pushAddAll]
        exact ih lo ((lo + hi) / 2) numpop s b0 st0 hb ⟨fs, hst, hlen⟩
    · rw [if_neg hgt]
      exact ⟨hb, fs, hst, hlen⟩

end SimValue

namespace SimValue

theorem minLoop_invar (size : Nat) (s0 : Solver) (mv lo0 hi0 : Nat)
    (hm0 : s0.models mv = true)
    (hminimal : ∀ y, y < 2 ^ size → s0.models y = true → lo0 ≤ y → y ≤ hi0 → mv ≤ y)
    (hhi0 : hi0 < 2 ^ size) :
    ∀ (fuel lo hi numpop : Nat) (s : Solver),
      hi - lo ≤ fuel →
      (∀ x, s.models x = true → s0.models x = true) →
      (∀ x, lo ≤ x → x ≤ hi → (s.models x = true ↔ s0.models x = true)) →
      lo0 ≤ lo → hi ≤ hi0 → lo ≤ mv → mv ≤ hi →
      lo0 ≤ (minLoop size fuel lo hi numpop s).1 ∧
      (minLoop size fuel lo hi numpop s).2.1 ≤ hi0 ∧
      (minLoop size fuel lo hi numpop s).1 ≤ mv ∧
      mv ≤ (minLoop size fuel lo hi numpop s).2.1 ∧
      (minLoop size fuel lo hi numpop s).2.1 - (minLoop size fuel lo hi numpop s).1 ≤ 1 := by
  intro fuel
  induction fuel with
  | zero =>
    intro lo hi numpop s hfuel hsub hagree hlo hhi hlomv hmvhi
    refine ⟨hlo, hhi, hlomv, hmvhi, ?_⟩
    show hi - lo ≤ 1
    omega
  | succ k ih =>
    intro lo hi numpop s hfuel hsub hagree hlo hhi hlomv hmvhi
    rw [minLoop]
    by_cases hgt : hi - lo > 1
    · rw [if_pos hgt]
      have hmid1 : lo + 1 ≤ (lo + hi) / 2 := by omega
      have hmid2 : (lo + hi) / 2 + 1 ≤ hi := by omega
      have hs1 : ∀ x, ((s.push).addAll
          [fun x => decide (lo ≤ x), fun x => decide (x < (lo + hi) / 2)]).models x = true ↔
          (s.models x = true ∧ lo ≤ x ∧ x < (lo + hi) / 2) := by
        intro x
        rw [Solver.models_addAll, Solver.models_push]
        simp [and_assoc]
      by_cases hc : ((s.push).addAll
          [fun x => decide (lo ≤ x), fun x => decide (x < (lo + hi) / 2)]).checkB size = true
      · rw [if_pos hc]
        obtain ⟨x, hxlt, hxm⟩ := (Solver.checkB_iff _ _).mp hc
        obtain ⟨hxs, hxlo, hxmid⟩ := (hs1 x).mp hxm
        have hx0 : s0.models x = true := hsub x hxs
        have hmvx : mv ≤ x := hminimal x hxlt hx0 (by omega) (by omega)
        apply ih lo ((lo + hi) / 2 - 1) (numpop + 1) _
        · omega
        · intro y hy
          exact hsub y ((hs1 y).mp hy).1
        · intro y hy1 hy2
          constructor
          · intro hy
            exact (hagree y hy1 (by omega)).mp ((hs1 y).mp hy).1
          · intro hy
            exact (hs1 y).mpr ⟨(hagree y hy1 (by omega)).mpr hy, hy1, by omega⟩
        · omega
        · omega
        · omega
        · omega
      · rw [if_neg hc]
        rw [Solver.pop_pushAddAll]
        have hmvmid : (lo + hi) / 2 ≤ mv := by
          by_contra hcon
          push_neg at hcon
          have hmvm : s.models mv = true := (hagree mv hlomv hmvhi).mpr hm0
          have hs1mv : ((s.push).addAll
              [fun x => decide (lo ≤ x), fun x => decide (x < (lo + hi) / 2)]).models mv
              = true := (hs1 mv).mpr ⟨hmvm, hlomv, hcon⟩
          exact hc ((Solver.checkB_iff _ _).mpr ⟨mv, by omega, hs1mv⟩)
        apply ih ((lo + hi) / 2) hi numpop s
        · omega
        · exact hsub
        · intro y hy1 hy2
          exact hagree y (by omega) hy2
        · omega
        · omega
        · omega
        · omega
    · rw [if_neg hgt]
      refine ⟨hlo, hhi, hlomv, hmvhi, ?_⟩
      show hi - lo ≤ 1
      omega

theorem maxLoop_invar (size : Nat) (s0 : Solver) (mv lo0 hi0 : Nat)
    (hm0 : s0.models mv = true)
    (hmaximal : ∀ y, y < 2 ^ size → s0.models y = true → lo0 ≤ y → y ≤ hi0 → y ≤ mv)
    (hhi0 : hi0 < 2 ^ size) :
    ∀ (fuel lo hi numpop : Nat) (s : Solver),
      hi - lo ≤ fuel →
      (∀ x, s.models x = true → s0.models x = true) →
      (∀ x, lo ≤ x → x ≤ hi → (s.models x = true ↔ s0.models x = true)) →
      lo0 ≤ lo → hi ≤ hi0 → lo ≤ mv → mv ≤ hi →
      lo0 ≤ (maxLoop size fuel lo hi numpop s).1 ∧
      (maxLoop size fuel lo hi numpop s).2.1 ≤ hi0 ∧
      (maxLoop size fuel lo hi numpop s).1 ≤ mv ∧
      mv ≤ (maxLoop size fuel lo hi numpop s).2.1 ∧
      (maxLoop size fuel lo hi numpop s).2.1 - (maxLoop size fuel lo hi numpop s).1 ≤ 1 := by
  intro fuel
  induction fuel with
  | zero =>
    intro lo hi numpop s hfuel hsub hagree hlo hhi hlomv hmvhi
    refine ⟨hlo, hhi, hlomv, hmvhi, ?_⟩
    show hi - lo ≤ 1
    omega
  | succ k ih =>
    intro lo hi numpop s hfuel hsub hagree hlo hhi hlomv hmvhi
    rw [maxLoop]
    by_cases hgt : hi - lo > 1
    · rw [if_pos hgt]
      have hmid1 : lo + 1 ≤ (lo + hi) / 2 := by omega
      have hmid2 : (lo + hi) / 2 + 1 ≤ hi := by omega
      have hs1 : ∀ x, ((s.push).addAll
          [fun x => decide ((lo + hi) / 2 < x), fun x => decide (x ≤ hi)]).models x = true ↔
          (s.models x = true ∧ (lo + hi) / 2 < x ∧ x ≤ hi) := by
        intro x
        rw [Solver.models_addAll, Solver.models_push]
        simp [and_assoc]
      by_cases hc : ((s.push).addAll
          [fun x => decide ((lo + hi) / 2 < x), fun x => decide (x ≤ hi)]).checkB size = true
      · rw [if_pos hc]
        obtain ⟨x, hxlt, hxm⟩ := (Solver.checkB_iff _ _).mp hc
        obtain ⟨hxs, hxmid, hxhi⟩ := (hs1 x).mp hxm
        have hx0 : s0.models x = true := hsub x hxs
        have hmvx : x ≤ mv := hmaximal x hxlt hx0 (by omega) (by omega)
        apply ih ((lo + hi) / 2 + 1) hi (numpop + 1) _
        · omega
        · intro y hy
          exact hsub y ((hs1 y).mp hy).1
        · intro y hy1 hy2
          constructor
          · intro hy
            exact (hagree y (by omega) hy2).mp ((hs1 y).mp hy).1
          · intro hy
            exact (hs1 y).mpr ⟨(hagree y (by omega) hy2).mpr hy, by omega, hy2⟩
        · omega
        · omega
        · omega
        · omega
      · rw [if_neg hc]
        rw [Solver.pop_pushAddAll]
        have hmvmid : mv ≤ (lo + hi) / 2 := by
          by_contra hcon
          push_neg at hcon
          have hmvm : s.models mv = true := (hagree mv hlomv hmvhi).mpr hm0
          have hs1mv : ((s.push).addAll
              [fun x => decide ((lo + hi) / 2 < x), fun x => decide (x ≤ hi)]).models mv
              = true := (hs1 mv).mpr ⟨hmvm, hcon, hmvhi⟩
          exact hc ((Solver.checkB_iff _ _).mpr ⟨mv, by omega, hs1mv⟩)
        apply ih lo ((lo + hi) / 2) numpop s
        · omega
        · exact hsub
        · intro y hy1 hy2
          exact hagree y hy1 (by omega)
        · omega
        · omega
        · omega
        · omega
    · rw [if_neg hgt]
      refine ⟨hlo, hhi, hlomv, hmvhi, ?_⟩
      show hi - lo ≤ 1
      omega

end SimValue

namespace SimValue

theorem min_run_unique (v : SimValue) (lo hi : Nat) (m : Machine) (w : Nat)
    (hsym : v.symbolic = true) (hstrict : m.strictActive = false)
    (hsl : m.solver.solList v.size = [w]) :
    SimValue.min v lo hi m =
      (.ok w, if m.hasState then
        (m.addPermanent fun x => x == w).addPermanent (fun x => x == w) else m) := by
  have hLn : solListE v none m = [w] := by rw [solListE_none, hsl]
  have hsat : v.satisfiable m = true := by
    rw [satisfiable, Solver.checkB_iff_solList, hsl]
    simp
  have hcount : solCountE v none m = 1 := by
    unfold solCountE
    rw [hLn]
    rfl
  have hu : is_unique v none m = (.ok true,
      if m.hasState then m.addPermanent (fun x => x == w) else m) := by
    rw [is_unique_run v none m hsym hstrict, hcount, hLn]
    simp
  rw [SimValue.min, if_neg (by simp [hsat]), hu]
  by_cases hS : m.hasState = true
  · rw [if_pos hS, if_pos hS]
    show any v none (m.addPermanent fun x => x == w) = _
    rw [any_run_unique v none (m.addPermanent fun x => x == w) w hsym
      (by rw [strictActive_addPermanent]; exact hstrict)
      (by rw [solListE_none, solList_addPermanent, hsl]; simp)]
    rw [if_pos (show (m.addPermanent fun x => x == w).hasState = true from hS)]
  · rw [if_neg hS, if_neg hS]
    show any v none m = _
    rw [any_run_unique v none m w hsym hstrict hLn]
    rw [if_neg hS]

theorem max_run_unique (v : SimValue) (lo hi : Nat) (m : Machine) (w : Nat)
    (hsym : v.symbolic = true) (hstrict : m.strictActive = false)
    (hsl : m.solver.solList v.size = [w]) :
    SimValue.max v lo hi m =
      (.ok w, if m.hasState then
        (m.addPermanent fun x => x == w).addPermanent (fun x => x == w) else m) := by
  have hLn : solListE v none m = [w] := by rw [solListE_none, hsl]
  have hsat : v.satisfiable m = true := by
    rw [satisfiable, Solver.checkB_iff_solList, hsl]
    simp
  have hcount : solCountE v none m = 1 := by
    unfold solCountE
    rw [hLn]
    rfl
  have hu : is_unique v none m = (.ok true,
      if m.hasState then m.addPermanent (fun x => x == w) else m) := by
    rw [is_unique_run v none m hsym hstrict, hcount, hLn]
    simp
  rw [SimValue.max, if_neg (by simp [hsat]), hu]
  by_cases hS : m.hasState = true
  · rw [if_pos hS, if_pos hS]
    show any v none (m.addPermanent fun x => x == w) = _
    rw [any_run_unique v none (m.addPermanent fun x => x == w) w hsym
      (by rw [strictActive_addPermanent]; exact hstrict)
      (by rw [solListE_none, solList_addPermanent, hsl]; simp)]
    rw [if_pos (show (m.addPermanent fun x => x == w).hasState = true from hS)]
  · rw [if_neg hS, if_neg hS]
    show any v none m = _
    rw [any_run_unique v none m w hsym hstrict hLn]
    rw [if_neg hS]

theorem min_false_reduce (v : SimValue) (lo hi : Nat) (m : Machine)
    (hsat : v.satisfiable m = true)
    (hu : is_unique v none m = (.ok false, m))
    (rlo rhi rnp : Nat) (rs : Solver)
    (hr : minLoop v.size (Nat.min hi v.max_for_size - Nat.max lo v.min_for_size)
      (Nat.max lo v.min_for_size) (Nat.min hi v.max_for_size) 0 m.solver
      = (rlo, rhi, rnp, rs)) :
    SimValue.min v lo hi m =
      (if rhi = rlo then (.ok rlo, { m with solver := Solver.popN rnp rs })
       else match is_solution v rlo { m with solver := Solver.popN rnp rs } with
         | (.error e, m3) => (.error e, m3)
         | (.ok true, m3) => (.ok rlo, m3)
         | (.ok false, m3) => (.ok rhi, m3)) := by
  rw [SimValue.min, if_neg (by simp [hsat])]
  split
  · rename_i e m1 heq
    rw [hu] at heq
    simp at heq
  · rename_i m1 heq
    rw [hu] at heq
    simp at heq
  · rename_i m1 heq
    rw [hu] at heq
    injection heq with h1 h2
    subst h2
    rw [hr]

theorem max_false_reduce (v : SimValue) (lo hi : Nat) (m : Machine)
    (hsat : v.satisfiable m = true)
    (hu : is_unique v none m = (.ok false, m))
    (rlo rhi rnp : Nat) (rs : Solver)
    (hr : maxLoop v.size (Nat.min hi v.max_for_size - Nat.max lo v.min_for_size)
      (Nat.max lo v.min_for_size) (Nat.min hi v.max_for_size) 0 m.solver
      = (rlo, rhi, rnp, rs)) :
    SimValue.max v lo hi m =
      (if rlo = rhi then (.ok rhi, { m with solver := Solver.popN rnp rs })
       else match is_solution v rhi { m with solver := Solver.popN rnp rs } with
         | (.error e, m3) => (.error e, m3)
         | (.ok true, m3) => (.ok rhi, m3)
         | (.ok false, m3) => (.ok rlo, m3)) := by
  rw [SimValue.max, if_neg (by simp [hsat])]
  split
  · rename_i e m1 heq
    rw [hu] at heq
    simp at heq
  · rename_i m1 heq
    rw [hu] at heq
    simp at heq
  · rename_i m1 heq
    rw [hu] at heq
    injection heq with h1 h2
    subst h2
    rw [hr]

end SimValue

namespace SimValue

theorem min_returns_least (v : SimValue) (lo hi : Nat) (m : Machine) (mv : Nat)
    (hsym : v.symbolic = true) (hstrict : m.strictActive = false)
    (hmv : isLeastSol m.solver v.size (Nat.max lo v.min_for_size)
      (Nat.min hi v.max_for_size) mv) :
    (SimValue.min v lo hi m).1 = .ok mv := by
  obtain ⟨hmm, hmlo, hmhi, hminimal⟩ := hmv
  have h2p : 0 < 2 ^ v.size := Nat.two_pow_pos _
  have hclamp : Nat.min hi v.max_for_size ≤ 2 ^ v.size - 1 :=
    Nat.min_le_right hi (2 ^ v.size - 1)
  have hhi0 : Nat.min hi v.max_for_size < 2 ^ v.size := by omega
  have hmvlt : mv < 2 ^ v.size := by omega
  have hsat : v.satisfiable m = true := by
    rw [satisfiable]
    exact (Solver.checkB_iff _ _).mpr ⟨mv, hmvlt, hmm⟩
  cases hsl : m.solver.solList v.size with
  | nil =>
    exfalso
    have hmem := (Solver.mem_solList m.solver v.size mv).mpr ⟨hmvlt, hmm⟩
    rw [hsl] at hmem
    simp at hmem
  | cons w t =>
    cases t with
    | nil =>
      have hmem := (Solver.mem_solList m.solver v.size mv).mpr ⟨hmvlt, hmm⟩
      rw [hsl] at hmem
      have hmvw : mv = w := by simpa using hmem
      rw [min_run_unique v lo hi m w hsym hstrict hsl, hmvw]
    | cons w2 t2 =>
      have hLn : solListE v none m = w :: w2 :: t2 := by rw [solListE_none, hsl]
      have hcount : solCountE v none m = t2.length + 2 := by
        unfold solCountE
        rw [hLn]
        rfl
      have hu : is_unique v none m = (.ok false, m) := by
        rw [is_unique_run v none m hsym hstrict, hcount]
        have hb : (t2.length + 2 == 1) = false := beq_eq_false_iff_ne.mpr (by omega)
        rw [hb]
        simp
      rcases hr : minLoop v.size (Nat.min hi v.max_for_size - Nat.max lo v.min_for_size)
        (Nat.max lo v.min_for_size) (Nat.min hi v.max_for_size) 0 m.solver
        with ⟨rlo, rhi, rnp, rs⟩
      have hinv := minLoop_invar v.size m.solver mv (Nat.max lo v.min_for_size)
        (Nat.min hi v.max_for_size) hmm hminimal hhi0
        (Nat.min hi v.max_for_size - Nat.max lo v.min_for_size)
        (Nat.max lo v.min_for_size) (Nat.min hi v.max_for_size) 0 m.solver
        (le_refl _) (fun _ h => h) (fun _ _ _ => Iff.rfl)
        (le_refl _) (le_refl _) hmlo hmhi
      rw [hr] at hinv
      have hplo : Nat.max lo v.min_for_size ≤ rlo := hinv.1
      have hphi : rhi ≤ Nat.min hi v.max_for_size := hinv.2.1
      have hpmv1 : rlo ≤ mv := hinv.2.2.1
      have hpmv2 : mv ≤ rhi := hinv.2.2.2.1
      have hpd : rhi - rlo ≤ 1 := hinv.2.2.2.2
      have hframes := minLoop_frames v.size
        (Nat.min hi v.max_for_size - Nat.max lo v.min_for_size)
        (Nat.max lo v.min_for_size) (Nat.min hi v.max_for_size) 0 m.solver
        m.solver.base m.solver.stack rfl ⟨[], rfl, rfl⟩
      rw [hr] at hframes
      have hbase : rs.base = m.solver.base := hframes.1
      obtain ⟨fs2, hstack, hlen⟩ := hframes.2
      have hlen2 : fs2.length = rnp := hlen
      have hpopN : Solver.popN rnp rs = m.solver := by
        rw [← hlen2, Solver.popN_frames fs2 m.solver.base m.solver.stack rs hbase hstack]
      have hm2 : { m with solver := Solver.popN rnp rs } = m := by
        rw [hpopN]
      rw [min_false_reduce v lo hi m hsat hu rlo rhi rnp rs hr, hm2]
      by_cases hEq : rhi = rlo
      · rw [if_pos hEq]
        show Except.ok rlo = Except.ok mv
        have : rlo = mv := by omega
        rw [this]
      · rw [if_neg hEq]
        rw [is_solution_run v rlo m hsym hstrict]
        have hrlolt : rlo < 2 ^ v.size := by omega
        have hdec : decide (rlo < 2 ^ v.size) = true := decide_eq_true hrlolt
        rw [hdec, Bool.true_and]
        by_cases hsol : m.solver.models rlo = true
        · rw [hsol]
          show Except.ok rlo = Except.ok mv
          have hminr : mv ≤ rlo := hminimal rlo hrlolt hsol hplo (by omega)
          have : rlo = mv := by omega
          rw [this]
        · have hsolf : m.solver.models rlo = false := by
            cases hx : m.solver.models rlo
            · rfl
            · exact absurd hx hsol
          rw [hsolf]
          show Except.ok rhi = Except.ok mv
          have hne : mv ≠ rlo := fun he => hsol (he ▸ hmm)
          have : rhi = mv := by omega
          rw [this]

theorem max_returns_greatest (v : SimValue) (lo hi : Nat) (m : Machine) (mv : Nat)
    (hsym : v.symbolic = true) (hstrict : m.strictActive = false)
    (hmv : isGreatestSol m.solver v.size (Nat.max lo v.min_for_size)
      (Nat.min hi v.max_for_size) mv) :
    (SimValue.max v lo hi m).1 = .ok mv := by
  obtain ⟨hmm, hmlo, hmhi, hmaximal⟩ := hmv
  have h2p : 0 < 2 ^ v.size := Nat.two_pow_pos _
  have hclamp : Nat.min hi v.max_for_size ≤ 2 ^ v.size - 1 :=
    Nat.min_le_right hi (2 ^ v.size - 1)
  have hhi0 : Nat.min hi v.max_for_size < 2 ^ v.size := by omega
  have hmvlt : mv < 2 ^ v.size := by omega
  have hsat : v.satisfiable m = true := by
    rw [satisfiable]
    exact (Solver.checkB_iff _ _).mpr ⟨mv, hmvlt, hmm⟩
  cases hsl : m.solver.solList v.size with
  | nil =>
    exfalso
    have hmem := (Solver.mem_solList m.solver v.size mv).mpr ⟨hmvlt, hmm⟩
    rw [hsl] at hmem
    simp at hmem
  | cons w t =>
    cases t with
    | nil =>
      have hmem := (Solver.mem_solList m.solver v.size mv).mpr ⟨hmvlt, hmm⟩
      rw [hsl] at hmem
      have hmvw : mv = w := by simpa using hmem
      rw [max_run_unique v lo hi m w hsym hstrict hsl, hmvw]
    | cons w2 t2 =>
      have hLn : solListE v none m = w :: w2 :: t2 := by rw [solListE_none, hsl]
      have hcount : solCountE v none m = t2.length + 2 := by
        unfold solCountE
        rw [hLn]
        rfl
      have hu : is_unique v none m = (.ok false, m) := by
        rw [is_unique_run v none m hsym hstrict, hcount]
        have hb : (t2.length + 2 == 1) = false := beq_eq_false_iff_ne.mpr (by omega)
        rw [hb]
        simp
      rcases hr : maxLoop v.size (Nat.min hi v.max_for_size - Nat.max lo v.min_for_size)
        (Nat.max lo v.min_for_size) (Nat.min hi v.max_for_size) 0 m.solver
        with ⟨rlo, rhi, rnp, rs⟩
      have hinv := maxLoop_invar v.size m.solver mv (Nat.max lo v.min_for_size)
        (Nat.min hi v.max_for_size) hmm hmaximal hhi0
        (Nat.min hi v.max_for_size - Nat.max lo v.min_for_size)
        (Nat.max lo v.min_for_size) (Nat.min hi v.max_for_size) 0 m.solver
        (le_refl _) (fun _ h => h) (fun _ _ _ => Iff.rfl)
        (le_refl _) (le_refl _) hmlo hmhi
      rw [hr] at hinv
      have hplo : Nat.max lo v.min_for_size ≤ rlo := hinv.1
      have hphi : rhi ≤ Nat.min hi v.max_for_size := hinv.2.1
      have hpmv1 : rlo ≤ mv := hinv.2.2.1
      have hpmv2 : mv ≤ rhi := hinv.2.2.2.1
      have hpd : rhi - rlo ≤ 1 := hinv.2.2.2.2
      have hframes := maxLoop_frames v.size
        (Nat.min hi v.max_for_size - Nat.max lo v.min_for_size)
        (Nat.max lo v.min_for_size) (Nat.min hi v.max_for_size) 0 m.solver
        m.solver.base m.solver.stack rfl ⟨[], rfl, rfl⟩
      rw [hr] at hframes
      have hbase : rs.base = m.solver.base := hframes.1
      obtain ⟨fs2, hstack, hlen⟩ := hframes.2
      have hlen2 : fs2.length = rnp := hlen
      have hpopN : Solver.popN rnp rs = m.solver := by
        rw [← hlen2, Solver.popN_frames fs2 m.solver.base m.solver.stack rs hbase hstack]
      have hm2 : { m with solver := Solver.popN rnp rs } = m := by
        rw [hpopN]
      rw [max_false_reduce v lo hi m hsat hu rlo rhi rnp rs hr, hm2]
      by_cases hEq : rlo = rhi
      · rw [if_pos hEq]
        show Except.ok rhi = Except.ok mv
        have : rhi = mv := by omega
        rw [this]
      · rw [if_neg hEq]
        rw [is_solution_run v rhi m hsym hstrict]
        have hrhilt : rhi < 2 ^ v.size := by omega
        have hdec : decide (rhi < 2 ^ v.size) = true := decide_eq_true hrhilt
        rw [hdec, Bool.true_and]
        by_cases hsol : m.solver.models rhi = true
        · rw [hsol]
          show Except.ok rhi = Except.ok mv
          have hmaxr : rhi ≤ mv := hmaximal rhi hrhilt hsol (by omega) (by omega)
          have : rhi = mv := by omega
          rw [this]
        · have hsolf : m.solver.models rhi = false := by
            cases hx : m.solver.models rhi
            · rfl
            · exact absurd hx hsol
          rw [hsolf]
          show Except.ok rlo = Except.ok mv
          have hne : mv ≠ rhi := fun he => hsol (he ▸ hmm)
          have : rlo = mv := by omega
          rw [this]

end SimValue

namespace SimValue

theorem min_machine (v : SimValue) (lo hi : Nat) (m : Machine) :
    ∃ cs, (SimValue.min v lo hi m).2 = m.extendBase cs := by
  rw [SimValue.min]
  by_cases hsat : v.satisfiable m = false
  · rw [if_pos hsat]
    exact ⟨[], (Machine.extendBase_nil m).symm⟩
  · rw [if_neg hsat]
    obtain ⟨cs1, hcs1⟩ := is_unique_snd v none m
    split
    · rename_i e m1 heq
      refine ⟨cs1, ?_⟩
      show m1 = m.extendBase cs1
      rw [← hcs1, heq]
    · rename_i m1 heq
      obtain ⟨cs2, hcs2⟩ := any_snd v none m1
      refine ⟨cs1 ++ cs2, ?_⟩
      show (any v none m1).2 = _
      have hm1 : m1 = m.extendBase cs1 := by rw [← hcs1, heq]
      rw [hcs2, hm1, Machine.extendBase_extendBase]
    · rename_i m1 heq
      have hm1 : m1 = m.extendBase cs1 := by rw [← hcs1, heq]
      rcases hrr : minLoop v.size (Nat.min hi v.max_for_size - Nat.max lo v.min_for_size)
        (Nat.max lo v.min_for_size) (Nat.min hi v.max_for_size) 0 m1.solver
        with ⟨rlo, rhi, rnp, rs⟩
      have hframes := minLoop_frames v.size
        (Nat.min hi v.max_for_size - Nat.max lo v.min_for_size)
        (Nat.max lo v.min_for_size) (Nat.min hi v.max_for_size) 0 m1.solver
        m1.solver.base m1.solver.stack rfl ⟨[], rfl, rfl⟩
      rw [hrr] at hframes
      have hbase : rs.base = m1.solver.base := hframes.1
      obtain ⟨fs2, hstack, hlen⟩ := hframes.2
      have hlen2 : fs2.length = rnp := hlen
      have hstack2 : rs.stack = fs2 ++ m1.solver.stack := hstack
      have hpopN : Solver.popN rnp rs = m1.solver := by
        rw [← hlen2, Solver.popN_frames fs2 m1.solver.base m1.solver.stack rs hbase hstack2]
      have hm2 : { m1 with solver := Solver.popN rnp rs } = m1 := by
        rw [hpopN]
      show ∃ cs,
        (if rhi = rlo then
          ((Except.ok rlo : Except SimErr Nat), { m1 with solver := Solver.popN rnp rs })
        else match is_solution v rlo { m1 with solver := Solver.popN rnp rs } with
          | (.error e, m3) => (.error e, m3)
          | (.ok true, m3) => (.ok rlo, m3)
          | (.ok false, m3) => (.ok rhi, m3)).2 = m.extendBase cs
      split
      · refine ⟨cs1, ?_⟩
        show { m1 with solver := Solver.popN rnp rs } = m.extendBase cs1
        rw [hm2]
        exact hm1
      · split
        · rename_i e3 m3 heq3
          refine ⟨cs1, ?_⟩
          show m3 = m.extendBase cs1
          have h3 := is_solution_snd v rlo { m1 with solver := Solver.popN rnp rs }
          rw [heq3] at h3
          have hm3 : m3 = { m1 with solver := Solver.popN rnp rs } := h3
          rw [hm3, hm2]
          exact hm1
        · rename_i m3 heq3
          refine ⟨cs1, ?_⟩
          show m3 = m.extendBase cs1
          have h3 := is_solution_snd v rlo { m1 with solver := Solver.popN rnp rs }
          rw [heq3] at h3
          have hm3 : m3 = { m1 with solver := Solver.popN rnp rs } := h3
          rw [hm3, hm2]
          exact hm1
        · rename_i m3 heq3
          refine ⟨cs1, ?_⟩
          show m3 = m.extendBase cs1
          have h3 := is_solution_snd v rlo { m1 with solver := Solver.popN rnp rs }
          rw [heq3] at h3
          have hm3 : m3 = { m1 with solver := Solver.popN rnp rs } := h3
          rw [hm3, hm2]
          exact hm1

theorem max_machine (v : SimValue) (lo hi : Nat) (m : Machine) :
    ∃ cs, (SimValue.max v lo hi m).2 = m.extendBase cs := by
  rw [SimValue.max]
  by_cases hsat : v.satisfiable m = false
  · rw [if_pos hsat]
    exact ⟨[], (Machine.extendBase_nil m).symm⟩
  · rw [if_neg hsat]
    obtain ⟨cs1, hcs1⟩ := is_unique_snd v none m
    split
    · rename_i e m1 heq
      refine ⟨cs1, ?_⟩
      show m1 = m.extendBase cs1
      rw [← hcs1, heq]
    · rename_i m1 heq
      obtain ⟨cs2, hcs2⟩ := any_snd v none m1
      refine ⟨cs1 ++ cs2, ?_⟩
      show (any v none m1).2 = _
      have hm1 : m1 = m.extendBase cs1 := by rw [← hcs1, heq]
      rw [hcs2, hm1, Machine.extendBase_extendBase]
    · rename_i m1 heq
      have hm1 : m1 = m.extendBase cs1 := by rw [← hcs1, heq]
      rcases hrr : maxLoop v.size (Nat.min hi v.max_for_size - Nat.max lo v.min_for_size)
        (Nat.max lo v.min_for_size) (Nat.min hi v.max_for_size) 0 m1.solver
        with ⟨rlo, rhi, rnp, rs⟩
      have hframes := maxLoop_frames v.size
        (Nat.min hi v.max_for_size - Nat.max lo v.min_for_size)
        (Nat.max lo v.min_for_size) (Nat.min hi v.max_for_size) 0 m1.solver
        m1.solver.base m1.solver.stack rfl ⟨[], rfl, rfl⟩
      rw [hrr] at hframes
      have hbase : rs.base = m1.solver.base := hframes.1
      obtain ⟨fs2, hstack, hlen⟩ := hframes.2
      have hlen2 : fs2.length = rnp := hlen
      have hstack2 : rs.stack = fs2 ++ m1.solver.stack := hstack
      have hpopN : Solver.popN rnp rs = m1.solver := by
        rw [← hlen2, Solver.popN_frames fs2 m1.solver.base m1.solver.stack rs hbase hstack2]
      have hm2 : { m1 with solver := Solver.popN rnp rs } = m1 := by
        rw [hpopN]
      show ∃ cs,
        (if rlo = rhi then
          ((Except.ok rhi : Except SimErr Nat), { m1 with solver := Solver.popN rnp rs })
        else match is_solution v rhi { m1 with solver := Solver.popN rnp rs } with
          | (.error e, m3) => (.error e, m3)
          | (.ok true, m3) => (.ok rhi, m3)
          | (.ok false, m3) => (.ok rlo, m3)).2 = m.extendBase cs
      split
      · refine ⟨cs1, ?_⟩
        show { m1 with solver := Solver.popN rnp rs } = m.extendBase cs1
        rw [hm2]
        exact hm1
      · split
        · rename_i e3 m3 heq3
          refine ⟨cs1, ?_⟩
          show m3 = m.extendBase cs1
          have h3 := is_solution_snd v rhi { m1 with solver := Solver.popN rnp rs }
          rw [heq3] at h3
          have hm3 : m3 = { m1 with solver := Solver.popN rnp rs } := h3
          rw [hm3, hm2]
          exact hm1
        · rename_i m3 heq3
          refine ⟨cs1, ?_⟩
          show m3 = m.extendBase cs1
          have h3 := is_solution_snd v rhi { m1 with solver := Solver.popN rnp rs }
          rw [heq3] at h3
          have hm3 : m3 = { m1 with solver := Solver.popN rnp rs } := h3
          rw [hm3, hm2]
          exact hm1
        · rename_i m3 heq3
          refine ⟨cs1, ?_⟩
          show m3 = m.extendBase cs1
          have h3 := is_solution_snd v rhi { m1 with solver := Solver.popN rnp rs }
          rw [heq3] at h3
          have hm3 : m3 = { m1 with solver := Solver.popN rnp rs } := h3
          rw [hm3, hm2]
          exact hm1

end SimValue

/-! ### Claim theorems -/

open SimValue

/-- C1: evaluation at the failing input.  With extra constraints supplied
(expr == 5), an owning state present, and an owning constraint set admitting
3 and 5, exactly_n(1, extra) returns [5] and still performs the permanent
add of expr == 5 to the owning state — the source guard at s_value.py:88
never tests extra_constraints — shrinking the owning state's solution set
from [3, 5] to [5]. -/
theorem exactly_n_learns_under_extra_constraints :
    (SimValue.exactly_n sv8w 1 extra5 mach35).1 = .ok [5] ∧
    (SimValue.exactly_n sv8w 1 extra5 mach35).2.solver.base.length
      = mach35.solver.base.length + 1 ∧
    (SimValue.exactly_n sv8w 1 extra5 mach35).2.hasState = true ∧
    mach35.solver.solList 8 = [3, 5] ∧
    (SimValue.exactly_n sv8w 1 extra5 mach35).2.solver.solList 8 = [5] :=
  ⟨rfl, rfl, rfl, by decide, by decide⟩

/-- C2: for a symbolic expression outside strict mode, min returns the least
and max the greatest satisfying value within the clamped range, whenever such
a value exists. -/
theorem min_max_binary_search_correct (v : SimValue) (lo hi : Nat) (m : Machine)
    (hsym : v.symbolic = true) (hstrict : m.strictActive = false) :
    (∀ mv, isLeastSol m.solver v.size (Nat.max lo v.min_for_size)
        (Nat.min hi v.max_for_size) mv → (SimValue.min v lo hi m).1 = .ok mv) ∧
    (∀ mv, isGreatestSol m.solver v.size (Nat.max lo v.min_for_size)
        (Nat.min hi v.max_for_size) mv → (SimValue.max v lo hi m).1 = .ok mv) :=
  ⟨fun mv h => min_returns_least v lo hi m mv hsym hstrict h,
   fun mv h => max_returns_greatest v lo hi m mv hsym hstrict h⟩

/-- C2 witness: 8-bit symbolic x with 5 <= x <= 9 gives min(0,255) = 5 and
max(0,255) = 9. -/
theorem min_max_binary_search_correct_witness :
    (SimValue.min sv8w 0 255 mach59).1 = .ok 5 ∧
    (SimValue.max sv8w 0 255 mach59).1 = .ok 9 :=
  ⟨(min_max_binary_search_correct sv8w 0 255 mach59 rfl rfl).1 5 (by decide),
   (min_max_binary_search_correct sv8w 0 255 mach59 rfl rfl).2 9 (by decide)⟩

/-- C3: every public operation call leaves the solver's scope stack exactly
as it found it — hence the same push/pop depth — on every exit path, and the
only persistent effect is a permanent base extension through the owning
state's add operation. -/
theorem scope_balance_all_ops (v : SimValue) (op : OpCall) (m : Machine) :
    (runOp v op m).solver.stack = m.solver.stack ∧
    (runOp v op m).solver.stack.length = m.solver.stack.length ∧
    (∃ cs, (runOp v op m).solver.base = m.solver.base ++ cs) ∧
    (runOp v op m).hasState = m.hasState ∧ (runOp v op m).strict = m.strict := by
  have hex : ∃ cs, runOp v op m = m.extendBase cs := by
    cases op with
    | callAnyN n extra =>
      refine ⟨[], ?_⟩
      show (v.any_n n extra m).2 = _
      rw [any_n_snd, Machine.extendBase_nil]
    | callIsUnique extra => exact is_unique_snd v extra m
    | callMin lo hi => exact min_machine v lo hi m
    | callMax lo hi => exact max_machine v lo hi m
    | callExactlyN n extra => exact exactly_n_snd v n extra m
    | callAny extra => exact any_snd v extra m
    | callIsSolution sol =>
      refine ⟨[], ?_⟩
      show (v.is_solution sol m).2 = _
      rw [is_solution_snd, Machine.extendBase_nil]
  obtain ⟨cs, h⟩ := hex
  rw [h]
  exact ⟨rfl, rfl, ⟨cs, rfl⟩, rfl, rfl⟩

/-- C4: exactly_n oversamples by one and then raises noSolutions when the
constraint set (with the extra constraints) has no solution, raises
insufficientSolutions(requested = n, found = actual count) when it has
between one and n - 1 solutions, and otherwise returns the first n. -/
theorem exactly_n_error_semantics (v : SimValue) (n : Nat) (extra : Option (List Constr))
    (m : Machine) (hsym : v.symbolic = true) (hstrict : m.strictActive = false) :
    (solCountE v extra m = 0 →
      SimValue.exactly_n v n extra m = (.error .noSolutions, m)) ∧
    (0 < solCountE v extra m → solCountE v extra m < n →
      SimValue.exactly_n v n extra m
        = (.error (.insufficientSolutions n (solCountE v extra m)), m)) ∧
    (0 < solCountE v extra m → n ≤ solCountE v extra m →
      (SimValue.exactly_n v n extra m).1 = .ok ((solListE v extra m).take n)) :=
  ⟨fun h0 => exactly_n_zero v n extra m hsym hstrict h0,
   fun h1 h2 => exactly_n_insufficient v n extra m hsym hstrict h1 h2,
   fun h1 h2 => exactly_n_enough v n extra m hsym hstrict h1 h2⟩

/-- C4 witness: 8-bit symbolic x with 5 <= x <= 9 has five solutions, so
exactlyN(6) raises InsufficientSolutions(6, 5). -/
theorem exactly_n_error_semantics_witness :
    SimValue.exactly_n sv8w 6 none mach59 = (.error (.insufficientSolutions 6 5), mach59) := by
  have h := (exactly_n_error_semantics sv8w 6 none mach59 rfl rfl).2.1 (by decide) (by decide)
  rw [h]
  rfl

/-- C5: any_n on a symbolic expression outside strict mode returns the first
n solutions of the current constraints joined with the extra constraints and
restores the machine exactly: at most n witnesses, pairwise distinct, each
satisfying current and extra constraints, with the blocking constraints and
extra constraints discarded by the closing pop. -/
theorem any_n_enumeration (v : SimValue) (n : Nat) (extra : Option (List Constr)) (m : Machine)
    (hsym : v.symbolic = true) (hstrict : m.strictActive = false) :
    SimValue.any_n v n extra m = (.ok ((solListE v extra m).take n), m) ∧
    ((solListE v extra m).take n).length ≤ n ∧
    ((solListE v extra m).take n).Nodup ∧
    (∀ x ∈ (solListE v extra m).take n,
      m.solver.models x = true ∧ (extraL extra).all (fun c => c x) = true ∧ x < 2 ^ v.size) := by
  refine ⟨any_n_run v n extra m hsym hstrict, ?_, ?_, ?_⟩
  · rw [List.length_take]
    exact Nat.min_le_left _ _
  · exact ((List.nodup_range _).filter _).sublist (List.take_sublist _ _)
  · intro x hx
    have hx2 := List.mem_of_mem_take hx
    rw [solListE, List.mem_filter, List.mem_range] at hx2
    obtain ⟨hlt, hsat⟩ := hx2
    rw [eSat, Bool.and_eq_true] at hsat
    exact ⟨hsat.1, hsat.2, hlt⟩

/-- C5 witness: anyN(10) on 8-bit x with 5 <= x <= 9 returns exactly the
five solutions and hands back the machine unchanged. -/
theorem any_n_enumeration_witness :
    SimValue.any_n sv8w 10 none mach59 = (.ok [5, 6, 7, 8, 9], mach59) := by
  have h := (any_n_enumeration sv8w 10 none mach59 rfl rfl).1
  rw [h]
  rfl

/-- C6: is_unique returns true without touching the machine for a
non-symbolic expression; on the symbolic path it probes any_n(2), answers
whether the solution count is exactly one, and permanently learns
expr == witness exactly when an owning state exists and extra constraints
were not supplied. -/
theorem is_unique_semantics (v : SimValue) (extra : Option (List Constr)) (m : Machine) :
    (v.symbolic = false → SimValue.is_unique v extra m = (.ok true, m)) ∧
    (v.symbolic = true → m.strictActive = false →
      SimValue.is_unique v extra m =
        (.ok (solCountE v extra m == 1),
          if (solCountE v extra m == 1) && m.hasState && extra.isNone then
            m.addPermanent (fun x => x == (solListE v extra m).headD 0)
          else m)) := by
  constructor
  · intro h
    rw [SimValue.is_unique, if_pos (by simp [SimValue.is_symbolic, h])]
  · intro hsym hstrict
    exact is_unique_run v extra m hsym hstrict

/-- C6 witness: a constant is trivially unique; five solutions are not
unique; a pinned owning state learns the uniqueness equality. -/
theorem is_unique_semantics_witness :
    SimValue.is_unique svConst none machFree = (.ok true, machFree) ∧
    SimValue.is_unique sv8w none mach59 = (.ok false, mach59) ∧
    SimValue.is_unique sv8w none mach7 = (.ok true, mach7.addPermanent (fun x => x == 7)) := by
  refine ⟨(is_unique_semantics svConst none machFree).1 rfl, ?_, ?_⟩
  · have h := (is_unique_semantics sv8w none mach59).2 rfl rfl
    rw [h]
    rfl
  · have h := (is_unique_semantics sv8w none mach7).2 rfl rfl
    rw [h]
    rfl

/-- C7: under the strict-concrete policy (owning state present with the
CONCRETE_STRICT option), any, any_n, exactly_n and is_solution on a symbolic
expression raise strictModeViolation with the machine — in particular the
solver's scope stack — untouched, so no witness is ever produced. -/
theorem strict_mode_raises (v : SimValue) (m : Machine)
    (hsym : v.symbolic = true) (hactive : m.strictActive = true) :
    (∀ extra, SimValue.any v extra m = (.error .strictModeViolation, m)) ∧
    (∀ n extra, SimValue.any_n v n extra m = (.error .strictModeViolation, m)) ∧
    (∀ n extra, SimValue.exactly_n v n extra m = (.error .strictModeViolation, m)) ∧
    (∀ sol, SimValue.is_solution v sol m = (.error .strictModeViolation, m)) := by
  have hn : ∀ n extra, SimValue.any_n v n extra m = (.error .strictModeViolation, m) := by
    intro n extra
    rw [SimValue.any_n, if_neg (by simp [SimValue.is_symbolic, hsym]), if_pos hactive]
  have he : ∀ n extra, SimValue.exactly_n v n extra m = (.error .strictModeViolation, m) := by
    intro n extra
    rw [SimValue.exactly_n, hn (n + 1) extra]
  refine ⟨?_, hn, he, ?_⟩
  · intro extra
    rw [SimValue.any, he 1 extra]
  · intro sol
    rw [SimValue.is_solution, if_neg (by simp [hsym]), if_pos hactive]

/-- C7 witness: a strict owning state makes any() and is_solution raise. -/
theorem strict_mode_raises_witness :
    SimValue.any sv8w none machStrict = (.error .strictModeViolation, machStrict) ∧
    SimValue.is_solution sv8w 3 machStrict = (.error .strictModeViolation, machStrict) :=
  ⟨(strict_mode_raises sv8w machStrict rfl rfl).1 none,
   (strict_mode_raises sv8w machStrict rfl rfl).2.2.2 3⟩

/-- C8 counterexample: a non-symbolic expression with constant 0x41 under an
unsatisfiable constraint set answers is_solution(0x41) with false, because
the source conjoins satisfiable() — the claim as stated demands true for
every non-symbolic expression. -/
theorem is_solution_const_unsat_counterexample :
    svConst.symbolic = false ∧ svConst.constVal = 65 ∧
    svConst.satisfiable machNever = false ∧
    (SimValue.is_solution svConst 65 machNever).1 = .ok false ∧
    ((Except.ok false : Except SimErr Bool) ≠ .ok true) :=
  ⟨rfl, rfl, by decide, rfl, by simp⟩

/-- C8 amended: for a non-symbolic expression with constant c, anyN(k) is
[c] with the machine untouched for every k, isUnique() is true with no
solver call, isSolution(c) equals satisfiable() — in particular true
whenever the constraint set is satisfiable — and isSolution(c + 1) is false
when representable. -/
theorem nonsymbolic_constant_semantics (v : SimValue) (m : Machine) (h : v.symbolic = false) :
    (∀ k extra, SimValue.any_n v k extra m = (.ok [v.constVal], m)) ∧
    (∀ extra, SimValue.is_unique v extra m = (.ok true, m)) ∧
    (SimValue.is_solution v v.constVal m = (.ok (v.satisfiable m), m)) ∧
    (v.satisfiable m = true → SimValue.is_solution v v.constVal m = (.ok true, m)) ∧
    (v.constVal + 1 ≤ 2 ^ v.size - 1 →
      SimValue.is_solution v (v.constVal + 1) m = (.ok false, m)) := by
  have hsolc : SimValue.is_solution v v.constVal m = (.ok (v.satisfiable m), m) := by
    rw [SimValue.is_solution, if_pos h]
    simp
  refine ⟨fun k extra => any_n_const v k extra m h, ?_, hsolc, ?_, ?_⟩
  · intro extra
    rw [SimValue.is_unique, if_pos (by simp [SimValue.is_symbolic, h])]
  · intro hsat
    rw [hsolc, hsat]
  · intro _
    rw [SimValue.is_solution, if_pos h]
    have hb : (v.constVal == v.constVal + 1) = false := beq_eq_false_iff_ne.mpr (by omega)
    rw [hb, Bool.and_false]

/-- C8 amended witness: constant 0x41 with an empty, satisfiable private
constraint set. -/
theorem nonsymbolic_constant_semantics_witness :
    SimValue.any_n svConst 3 none machFree = (.ok [65], machFree) ∧
    SimValue.is_unique svConst none machFree = (.ok true, machFree) ∧
    SimValue.is_solution svConst 65 machFree = (.ok true, machFree) ∧
    SimValue.is_solution svConst 66 machFree = (.ok false, machFree) := by
  have h := nonsymbolic_constant_semantics svConst machFree rfl
  exact ⟨h.1 3 none, h.2.1 none, h.2.2.2.1 (by decide), h.2.2.2.2 (by decide)⟩

/-- C9: any_n on a non-symbolic expression returns the one-element constant
list for every n — including n = 0 — with the machine untouched and no
satisfiability check, so also under an unsatisfiable constraint set. -/
theorem any_n_nonsymbolic_no_solver (v : SimValue) (n : Nat) (extra : Option (List Constr))
    (m : Machine) (h : v.symbolic = false) :
    SimValue.any_n v n extra m = (.ok [v.constVal], m) :=
  any_n_const v n extra m h

/-- C9 witness: n = 0 under an unsatisfiable constraint set still yields the
constant — one more witness than was requested. -/
theorem any_n_nonsymbolic_no_solver_witness :
    SimValue.any_n svConst 0 none machNever = (.ok [65], machNever) ∧
    machNever.solver.checkB svConst.size = false ∧
    (0 : Nat) < [65].length :=
  ⟨any_n_nonsymbolic_no_solver svConst 0 none machNever rfl, by decide, by decide⟩

/-- C10: on a symbolic expression bound to a non-strict owning state whose
constraint set admits exactly the witness w, min and max take the unique
fast path and are not side-effect free: they return w after permanently
adding expr == w to the owning state (twice: once in is_unique, once in the
exactly_n(1) inside any). -/
theorem min_max_unique_fast_path_learns (v : SimValue) (lo1 hi1 lo2 hi2 : Nat) (m : Machine)
    (w : Nat) (hsym : v.symbolic = true) (hstate : m.hasState = true)
    (hstrict : m.strict = false) (hw : m.solver.solList v.size = [w]) :
    SimValue.min v lo1 hi1 m =
      (.ok w, (m.addPermanent fun x => x == w).addPermanent (fun x => x == w)) ∧
    SimValue.max v lo2 hi2 m =
      (.ok w, (m.addPermanent fun x => x == w).addPermanent (fun x => x == w)) ∧
    ((m.addPermanent fun x => x == w).addPermanent (fun x => x == w)).solver.base
      = m.solver.base ++ [fun x => x == w, fun x => x == w] := by
  have hstrictA : m.strictActive = false := by
    rw [Machine.strictActive, hstrict, Bool.and_false]
  have h1 := min_run_unique v lo1 hi1 m w hsym hstrictA hw
  have h2 := max_run_unique v lo2 hi2 m w hsym hstrictA hw
  rw [if_pos hstate] at h1 h2
  refine ⟨h1, h2, ?_⟩
  show (m.solver.base ++ [fun x => x == w]) ++ [fun x => x == w] = _
  rw [List.append_assoc]
  rfl

/-- C10 witness: the owning state pinned to 7 learns expr == 7 twice while
min and max both return 7. -/
theorem min_max_unique_fast_path_learns_witness :
    SimValue.min sv8w 0 255 mach7 =
      (.ok 7, (mach7.addPermanent fun x => x == 7).addPermanent (fun x => x == 7)) ∧
    SimValue.max sv8w 0 255 mach7 =
      (.ok 7, (mach7.addPermanent fun x => x == 7).addPermanent (fun x => x == 7)) := by
  have h := min_max_unique_fast_path_learns sv8w 0 255 0 255 mach7 7 rfl rfl rfl (by decide)
  exact ⟨h.1, h.2.1⟩
